import Mathlib

/- Verification of the banzAI interpreter and A* search engine.

   The interpreter definitions below are a shallow embedding of the most
   complete draft of `Interpreter.interpretCommand` and its helpers
   (src/unnamed/part_000, first document: `contains`, `getPosition`,
   `interpretObject`, `interpretLocation`, `interpretEntity`, `isMatching`,
   `isAllowed`, the `take`/relational branches, and the top-level
   `Interpreter.interpret`).  The A* definitions embed `aStarSearch` from
   src/Graph.ts (the draft that consults the timeout; Graph.js and
   src/unnamed/part_001 are earlier drafts of the same function).

   JavaScript conventions modelled explicitly:
   - `state.objects[key]` yields `undefined` for a missing key; reading a
     property of `undefined` throws a TypeError.  Lookups return
     `Option ObjectDefinition`, and `getDef` turns `none` into
     `InterpErr.typeError`.
   - an out-of-range array index yields `undefined`; a `for ... in` loop
     over `undefined` performs zero iterations (`jsStackAt` returns `[]`),
     and `if (potential)` treats `undefined` and `""` as falsy.
   - `Array.prototype.slice` accepts negative bounds (counted from the
     end); `indexOf` returns `-1` when the element is absent.
   - machine numbers are modelled as `ℤ` (indices, and the integer-valued
     A* costs and clock readings used here).
-/

/-! ## Interpreter: data model (World.ts / Parser.ts shapes used by the code) -/

structure ObjectDefinition where
  form : String
  size : String
  color : String
deriving DecidableEq, Repr

/-- World snapshot: ordered stacks of identifiers (bottom first), an optional
held identifier, and the identifier-to-definition map (association list). -/
structure WorldState where
  stacks' : List (List String)
  holding : Option String
  objects : List (String × ObjectDefinition)
deriving DecidableEq, Repr

/- Parser.Object / Parser.Location / Parser.Entity.  A Parser.Object either
carries the attribute fields (flat leaf) or an inner object plus location
(composite); the source tests `object.object` to tell the two apart. -/
mutual
inductive PObject where
  | flat (form size color : Option String)
  | comp (obj : PObject) (loc : PLocation)
inductive PLocation where
  | mk (relation : String) (entity : PEntity)
inductive PEntity where
  | mk (obj : PObject)
end

def PLocation.relation : PLocation → String
  | .mk r _ => r

def PLocation.entity : PLocation → PEntity
  | .mk _ e => e

def PEntity.obj : PEntity → PObject
  | .mk o => o

/-- Parser.Command: a command word, the entity to act on, and (for relational
commands) a target location.  `location` is absent for take commands. -/
structure Command where
  command : String
  entity : PEntity
  location : Option PLocation

structure Literal where
  polarity : Bool
  relation : String
  args : List String
deriving DecidableEq, Repr

abbrev DNFFormula := List (List Literal)

/-- Errors an `interpretCommand` run can raise: a JavaScript TypeError
(property read on `undefined`) or the explicit
`new Error("No interpetation found.")`. -/
inductive InterpErr where
  | typeError
  | noInterpretation
deriving DecidableEq, Repr

deriving instance DecidableEq for Except

/-! ## String constants (object ids, forms, relations used at call sites) -/

def floorS : String := "floor"
def takeS : String := "take"
def holdingS : String := "holding"
def ballS : String := "ball"
def boxS : String := "box"
def ontopS : String := "ontop"
def insideS : String := "inside"
def underS : String := "under"
def leftSpaceOfS : String := "left of"
def rightSpaceOfS : String := "right of"
def leftofS : String := "leftof"
def rightofS : String := "rightof"
def commaS : String := ","
def aS : String := "a"
def kS : String := "k"
def hS : String := "h"

/-! ## JavaScript array helpers -/

/-- `arr.indexOf(x)`: index of the first occurrence, `-1` when absent. -/
def jsIndexOf : List String → String → ℤ
  | [], _ => -1
  | a :: as, x =>
      if a = x then 0
      else
        let r := jsIndexOf as x
        if r = -1 then -1 else r + 1

/-- `state.stacks[i]` as iterated by `for ... in`: an out-of-range or negative
index gives `undefined`, over which the loop runs zero times. -/
def jsStackAt (sts : List (List String)) (i : ℤ) : List String :=
  if 0 ≤ i then sts.getD i.toNat [] else []

/-- `stack[i]`: `undefined` (none) when out of range. -/
def jsElemAt (l : List String) (i : ℤ) : Option String :=
  if 0 ≤ i then l.get? i.toNat else none

/-- `l.slice(s)`: negative start counts from the end. -/
def jsSliceFrom (l : List String) (s : ℤ) : List String :=
  if 0 ≤ s then l.drop s.toNat else l.drop ((l.length : ℤ) + s).toNat

/-- `l.slice(0, e)`: negative end counts from the end. -/
def jsSliceTo (l : List String) (e : ℤ) : List String :=
  if 0 ≤ e then l.take e.toNat else l.take ((l.length : ℤ) + e).toNat

/-! ## Interpreter helpers (part_000, first document) -/

/-- `state.objects[key]`: association-list property lookup. -/
def lookupDef (st : WorldState) (key : String) : Option ObjectDefinition :=
  (st.objects.find? (fun p => p.1 = key)).map (fun p => p.2)

/-- Reading a property of `state.objects[key]`: TypeError when the entry is
absent (JavaScript `undefined.form`). -/
def getDef : Option ObjectDefinition → Except InterpErr ObjectDefinition
  | some d => .ok d
  | none => .error .typeError

/-- Total variant used by the resolver, which only ever looks up identifiers
taken from the stacks; under `WellFormed` those lookups always succeed, so the
default is never consulted there. -/
def defOf (st : WorldState) (key : String) : ObjectDefinition :=
  (lookupDef st key).getD ⟨"", "", ""⟩

/-- `contains` wrapper from the source (`arr.indexOf(elem) > -1`). -/
def jsContains (arr : List String) (elem : String) : Bool :=
  arr.contains elem

/-- `getPosition`: scan the stacks; on the first stack whose `indexOf` is
`> -1` return that stack index and the position.  When never found the source
returns stack number 0 and the last `indexOf` result (`-1` for a nonempty
stack array, the initial `0` for an empty one). -/
def getPosLoop (object : String) : List (List String) → ℕ → ℤ → ℤ × ℤ
  | [], _, objectnumber => (0, objectnumber)
  | s :: rest, j, _ =>
      let idx := jsIndexOf s object
      if idx > -1 then ((j : ℤ), idx) else getPosLoop object rest (j + 1) idx

def getPosition (st : WorldState) (object : String) : ℤ × ℤ :=
  getPosLoop object st.stacks' 0 0

/-- `isMatching(currentObject, object)`: each set, non-wildcard attribute of
the description must equal the candidate's attribute.  An unset field and the
falsy `""` are skipped, as is the form wildcard `"anyform"`. -/
def isMatching (currentObject : ObjectDefinition)
    (form size color : Option String) : Bool :=
  (match form with
   | some f => if f = "anyform" ∨ f = "" then true else currentObject.form = f
   | none => true)
  &&
  (match size with
   | some s => if s = "" then true else currentObject.size = s
   | none => true)
  &&
  (match color with
   | some c => if c = "" then true else currentObject.color = c
   | none => true)

/-- Body of the `switch (location.relation)` in `interpretLocation`, for one
anchor at position `pos` (stack index, position in stack).  Note the source's
case labels `"right of"` / `"left of"`; any other relation string falls
through to the empty contribution. -/
def relatedObjects (st : WorldState) (relation : String) (pos : ℤ × ℤ) :
    List String :=
  if relation = "ontop" ∨ relation = "inside" then
    match jsElemAt (jsStackAt st.stacks' pos.1) (pos.2 + 1) with
    | some potential => if potential = "" then [] else [potential]
    | none => []
  else if relation = "above" then
    jsSliceFrom (jsStackAt st.stacks' pos.1) (pos.2 + 1)
  else if relation = "under" then
    jsSliceTo (jsStackAt st.stacks' pos.1) pos.2
  else if relation = "right of" then
    jsStackAt st.stacks' (pos.1 + 1)
  else if relation = "left of" then
    jsStackAt st.stacks' (pos.1 - 1)
  else if relation = "beside" then
    jsStackAt st.stacks' (pos.1 - 1) ++ jsStackAt st.stacks' (pos.1 + 1)
  else []

mutual
/-- `interpretObject`: composite descriptions intersect the inner object set
with the inner location's anchor-relative set; a flat `"floor"` leaf resolves
to the virtual floor identifier; any other flat leaf is matched against the
identifiers collected from the stacks. -/
def interpretObject (st : WorldState) : PObject → List String
  | .comp obj loc =>
      let matchObjects := interpretObject st obj
      let locObjects := interpretLocation st loc
      matchObjects.filter (fun n => jsContains locObjects n)
  | .flat form size color =>
      if form = some floorS then [floorS]
      else
        (st.stacks'.flatten).filter
          (fun id => isMatching (defOf st id) form size color)
/-- `interpretLocation`: resolve the location's entity to anchors, then append
each anchor's relation-specific neighbours. -/
def interpretLocation (st : WorldState) : PLocation → List String
  | .mk relation entity =>
      (interpretEntity st entity).flatMap
        (fun a => relatedObjects st relation (getPosition st a))
/-- `interpretEntity`: an entity is currently just its object. -/
def interpretEntity (st : WorldState) : PEntity → List String
  | .mk obj => interpretObject st obj
end

/-- `isAllowed(moveObjKey, relation, destObjKey)` from the source.  The
function also reads the enclosing `cmd.location.relation` (here `cmdRel`) in
the ball rule and in the `switch`; every call site passes the same string for
both.  Both `state.objects` lookups happen up front, but a TypeError occurs
only when a property of an `undefined` result is read: `destObj.form` in the
floor rule, `moveObj.size` in the size rules. -/
def isAllowed (st : WorldState) (cmdRel : String)
    (moveObjKey relation destObjKey : String) : Except InterpErr Bool :=
  let moveObj? := lookupDef st moveObjKey
  let destObj? := lookupDef st destObjKey
  if moveObjKey = destObjKey then
    -- Objects can't be moved in relation to themselves.
    .ok false
  else
    match getDef destObj? with
    | .error e => .error e
    | .ok destObj =>
      if destObj.form = "floor" ∧ ¬ ("above" = relation ∨ "ontop" = relation) then
        -- everything must be ontop of or above the floor
        .ok false
      else
        match getDef moveObj? with
        | .error e => .error e
        | .ok moveObj =>
          if moveObj.size = "large" ∧ destObj.size = "small" ∧
              (relation = "ontop" ∨ relation = "inside" ∨ relation = "above") then
            .ok false
          else if moveObj.size = "small" ∧ destObj.size = "large" ∧
              relation = "under" then
            .ok false
          else if moveObj.form = "ball" ∧
              ((¬ (destObj.form = "floor" ∨ destObj.form = "box") ∧
                (cmdRel = "ontop" ∨ cmdRel = "inside")) ∨ cmdRel = "under") then
            .ok false
          else if destObj.form = "box" then
            if cmdRel = "ontop" then .ok false
            else if (moveObj.form = "box" ∨ moveObj.form = "pyramid" ∨
                moveObj.form = "plank") ∧ moveObj.size = destObj.size then
              .ok false
            else .ok true
          else if destObj.form = "ball" then
            if cmdRel = "ontop" ∨ cmdRel = "above" then .ok false else .ok true
          else if destObj.form = "pyramid" then
            if moveObj.form = "box" ∧ moveObj.size = destObj.size then .ok false
            else .ok true
          else if destObj.form = "brick" then
            if moveObj.form = "box" ∧ destObj.size = "small" then .ok false
            else .ok true
          else .ok true

/-- One singleton conjunction `{polarity:true, relation, args:[m, d]}`. -/
def mkLit (rel m d : String) : List Literal :=
  [⟨true, rel, [m, d]⟩]

/-- Inner loop of the relational branch: one move candidate `m` against every
destination candidate, in order; a TypeError from `isAllowed` aborts the whole
build. -/
def buildRelOne (st : WorldState) (rel m : String) :
    List String → Except InterpErr (List (List Literal))
  | [] => .ok []
  | d :: ds =>
      match isAllowed st rel m rel d with
      | .error e => .error e
      | .ok b =>
          match buildRelOne st rel m ds with
          | .error e => .error e
          | .ok rest => .ok ((if b then [mkLit rel m d] else []) ++ rest)

/-- Outer loop of the relational branch: every move candidate in order. -/
def buildRel (st : WorldState) (rel : String) :
    List String → List String → Except InterpErr (List (List Literal))
  | [], _ => .ok []
  | m :: ms, ds =>
      match buildRelOne st rel m ds with
      | .error e => .error e
      | .ok l1 =>
          match buildRel st rel ms ds with
          | .error e => .error e
          | .ok l2 => .ok (l1 ++ l2)

/-- The formula accumulated by `interpretCommand` before the final emptiness
check: the take branch emits a `holding` conjunction per resolved entity; the
relational branch pairs move candidates with destination candidates through
`isAllowed`.  A non-take command with no location dereferences
`cmd.location.entity` on `undefined`. -/
def resolvedFormula (cmd : Command) (st : WorldState) :
    Except InterpErr (List (List Literal)) :=
  if cmd.command = takeS then
    .ok ((interpretEntity st cmd.entity).map (fun t => [⟨true, holdingS, [t]⟩]))
  else
    match cmd.location with
    | none => .error .typeError
    | some loc =>
        buildRel st loc.relation (interpretEntity st cmd.entity)
          (interpretEntity st loc.entity)

/-- `interpretCommand`: return the accumulated formula when nonempty,
otherwise `throw new Error("No interpetation found.")`. -/
def interpretCommand (cmd : Command) (st : WorldState) :
    Except InterpErr (List (List Literal)) :=
  match resolvedFormula cmd st with
  | .error e => .error e
  | .ok interpretation =>
      if interpretation.length ≠ 0 then .ok interpretation
      else .error .noInterpretation

/-- Top-level `Interpreter.interpret`: run `interpretCommand` on each parse,
collecting successes and errors; return the successes when any exist,
otherwise throw the first collected error (throwing `undefined` — here
`none` — when there was no parse at all). -/
def interpretAll (parses : List Command) (st : WorldState) :
    Except (Option InterpErr) (List (Command × List (List Literal))) :=
  let oks := parses.filterMap
    (fun p => match interpretCommand p st with
              | .ok phi => some (p, phi)
              | .error _ => none)
  let errs := parses.filterMap
    (fun p => match interpretCommand p st with
              | .ok _ => none
              | .error e => some e)
  if oks.isEmpty then .error errs.head? else .ok oks

/-- `stringifyLiteral`: `"-"` prefix for negative polarity, relation name,
comma-joined arguments in parentheses. -/
def stringifyLiteral (lit : Literal) : String :=
  (if lit.polarity then "" else "-") ++ lit.relation ++ "(" ++
    String.intercalate commaS lit.args ++ ")"

/-- Spec §3 world invariants actually needed below: each stacked identifier
occurs once overall and has a definition, and the world has at least one
column (the degenerate zero-column world is the one input on which the
JavaScript resolver would fault; every shipped world has N ≥ 1 columns). -/
def WellFormed (st : WorldState) : Prop :=
  st.stacks'.flatten.Nodup ∧
  (∀ id ∈ st.stacks'.flatten, (lookupDef st id).isSome) ∧
  st.stacks' ≠ []

instance : DecidablePred WellFormed := fun st => by
  unfold WellFormed; infer_instance

/-! ## Concrete worlds and commands used by witnesses and counterexamples -/

def ballDef : ObjectDefinition := ⟨"ball", "small", "white"⟩
def boxDef : ObjectDefinition := ⟨"box", "large", "red"⟩

/-- One small white ball `a` on the table; no `"floor"` entry in the map. -/
def wBall : WorldState := ⟨[["a"]], none, [("a", ballDef)]⟩

/-- A box `k` on the table while a matching ball `h` is held by the arm:
`h` has a definition but occurs in no stack. -/
def wHeld : WorldState := ⟨[["k"]], some ("h"), [("h", ballDef), ("k", boxDef)]⟩

/-- Ball `a` and box `k` in separate columns. -/
def wBallBox : WorldState := ⟨[["a"], ["k"]], none, [("a", ballDef), ("k", boxDef)]⟩

def ballLeaf : PObject := .flat (some ballS) none none
def boxLeaf : PObject := .flat (some boxS) none none
def floorLeaf : PObject := .flat (some floorS) none none

/-- "move the ball inside the box". -/
def cmdBallInBox : Command :=
  ⟨"move", ⟨ballLeaf⟩, some (⟨insideS, ⟨boxLeaf⟩⟩)⟩

/-- "take the table" in a world with no table: resolves to nothing. -/
def cmdTakeNothing : Command :=
  ⟨takeS, ⟨.flat (some ("table")) none none⟩, none⟩

/-- "take the ball". -/
def cmdTakeBall : Command := ⟨takeS, ⟨ballLeaf⟩, none⟩

/-! ## A* search engine (src/Graph.ts, `aStarSearch`)

The graph's `compareNodes` is used by the search only through
`graph.compareNodes(a.node, b.node) === 0`, and `closedSet.indexOf` uses
JavaScript `===`; both are modelled by decidable equality on the node type.
Costs, scores and `Date.now()` readings are JavaScript numbers, modelled
as `ℤ`.  The wall clock is a function from the iteration count to the value
`Date.now()` returns at that iteration's loop-condition check; `startTime`
is the reading taken just before the loop. -/

structure EdgeM (Node : Type) where
  from_ : Node
  to_ : Node
  cost : ℤ
deriving DecidableEq, Repr

structure GraphM (Node : Type) where
  outgoingEdges : Node → List (EdgeM Node)

structure SearchResultM (Node : Type) where
  path : List Node
  cost : ℤ
deriving DecidableEq, Repr

/-- `NodeScore`: a frontier entry with its parent link and its f/g scores. -/
inductive NS (Node : Type) where
  | mk (parent : Option (NS Node)) (node : Node) (f g : ℤ)

def NS.parent {Node : Type} : NS Node → Option (NS Node)
  | .mk p _ _ _ => p

def NS.node {Node : Type} : NS Node → Node
  | .mk _ x _ _ => x

def NS.f {Node : Type} : NS Node → ℤ
  | .mk _ _ f _ => f

def NS.g {Node : Type} : NS Node → ℤ
  | .mk _ _ _ g => g

/-- Outcome of a run of the embedded `aStarSearch`: a returned
`SearchResult`, the final `return undefined` (NoPath), a thrown TypeError
(`getLowest` reading `.element` of a null `firstNode`), or fuel exhaustion
(the modelled run was cut off before the source loop finished). -/
inductive AOutcome (Node : Type) where
  | found (r : SearchResultM Node)
  | noPath
  | crash
  | outOfFuel
deriving DecidableEq, Repr

/-- `getLowest`: select the first frontier entry with strictly minimal `f`
and remove that occurrence (the source scans the linked list keeping the
first strict minimum, then removes the very node object it kept).  On an
empty frontier the source dereferences `null` — modelled as `none`. -/
def getLowest {Node : Type} : List (NS Node) → Option (NS Node × List (NS Node))
  | [] => none
  | x :: rest =>
      match getLowest rest with
      | none => some (x, [])
      | some (m, rem) => if m.f < x.f then some (m, x :: rem) else some (x, rest)

/-- Remove the first frontier entry whose node equals `t` (the source removes
the object returned by `indexOf` with the node-comparing `cmp`). -/
def eraseFirstNode {Node : Type} [DecidableEq Node] :
    List (NS Node) → Node → List (NS Node)
  | [], _ => []
  | x :: xs, t => if x.node = t then xs else x :: eraseFirstNode xs t

/-- The `for (let n of neighbours)` body: skip closed targets; otherwise build
the tentative entry and insert it, keep the better existing entry, or replace
a worse one (remove + append). -/
def expand {Node : Type} [DecidableEq Node] (G : GraphM Node) (h : Node → ℤ)
    (current : NS Node) (closed : List Node) :
    List (EdgeM Node) → List (NS Node) → List (NS Node)
  | [], opn => opn
  | e :: es, opn =>
      if e.to_ ∈ closed then expand G h current closed es opn
      else
        let t_gScore := current.g + e.cost
        let next : NS Node := .mk (some current) e.to_ (h e.to_ + t_gScore) t_gScore
        match opn.find? (fun ns => ns.node = e.to_) with
        | none => expand G h current closed es (opn ++ [next])
        | some existing =>
            if t_gScore ≥ existing.g then expand G h current closed es opn
            else expand G h current closed es (eraseFirstNode opn e.to_ ++ [next])

/-- Path reconstruction: `while (current !== null)` pushes each node while
following parent links (goal first, start last), then the list is reversed. -/
def chainNodes {Node : Type} : NS Node → List Node
  | .mk none x _ _ => [x]
  | .mk (some p) x _ _ => x :: chainNodes p

def reconstruct {Node : Type} (current : NS Node) : SearchResultM Node :=
  ⟨(chainNodes current).reverse, current.g⟩

/-- The `while (!openSet.isEmpty() || Date.now() - startTime <= timeout*1000)`
loop of Graph.ts, with explicit fuel.  `k` counts loop-condition checks so
that `clock k` is that check's `Date.now()` reading. -/
def aStarLoop {Node : Type} [DecidableEq Node] (G : GraphM Node)
    (goal : Node → Bool) (heuristics : Node → ℤ) (timeout startTime : ℤ)
    (clock : ℕ → ℤ) : ℕ → ℕ → List (NS Node) → List Node → AOutcome Node
  | 0, _, _, _ => .outOfFuel
  | fuel + 1, k, opn, closed =>
      if opn.isEmpty = false ∨ clock k - startTime ≤ timeout * 1000 then
        match getLowest opn with
        | none => .crash
        | some (current, rest) =>
            if goal current.node then .found (reconstruct current)
            else
              let closed2 := closed ++ [current.node]
              let opn2 :=
                expand G heuristics current closed2
                  (G.outgoingEdges current.node) rest
              aStarLoop G goal heuristics timeout startTime clock fuel
                (k + 1) opn2 closed2
      else .noPath

/-- `aStarSearch(graph, start, goal, heuristics, timeout)`: the frontier
starts with `{parent:null, node:start, f:heuristics(start), g:0}` and the
closed set empty. -/
def aStarSearch {Node : Type} [DecidableEq Node] (G : GraphM Node)
    (start : Node) (goal : Node → Bool) (heuristics : Node → ℤ)
    (timeout startTime : ℤ) (clock : ℕ → ℤ) (fuel : ℕ) : AOutcome Node :=
  aStarLoop G goal heuristics timeout startTime clock fuel 0
    [.mk none start (heuristics start) 0] []

/-- A frontier entry is a faithful record of a walk from `start`: the root
entry is the initial one, and every other entry extends its parent by one
outgoing edge, with `g` accumulating that edge's cost. -/
inductive ValidChain {Node : Type} (G : GraphM Node) (start : Node) :
    NS Node → Prop
  | root (f : ℤ) : ValidChain G start (.mk none start f 0)
  | step (p : NS Node) (e : EdgeM Node) (f : ℤ)
      (hp : ValidChain G start p) (he : e ∈ G.outgoingEdges p.node) :
      ValidChain G start (.mk (some p) e.to_ f (p.g + e.cost))

/-- `PathCost G l c`: the node sequence `l` is connected by edges of `G`
(each taken from `outgoingEdges` of the node it leaves) and `c` is the exact
sum of the costs of those edges. -/
inductive PathCost {Node : Type} (G : GraphM Node) : List Node → ℤ → Prop
  | single (n : Node) : PathCost G [n] 0
  | cons (a b : Node) (rest : List Node) (e : EdgeM Node) (c : ℤ)
      (he : e ∈ G.outgoingEdges a) (hb : e.to_ = b)
      (hc : PathCost G (b :: rest) c) :
      PathCost G (a :: b :: rest) (e.cost + c)

/-! ## Concrete graphs for witnesses and code evaluations -/

/-- Two nodes, one edge 0 → 1 of cost 1. -/
def gLine : GraphM ℕ := ⟨fun x => if x = 0 then [⟨0, 1, 1⟩] else []⟩

/-- A single node with no outgoing edges. -/
def gPoint : GraphM ℕ := ⟨fun _ => []⟩

/-! ## Lemmas about the A* loop -/

theorem getLowest_mem {Node : Type} :
    ∀ (l : List (NS Node)) (m : NS Node) (rem : List (NS Node)),
      getLowest l = some (m, rem) → m ∈ l ∧ ∀ y ∈ rem, y ∈ l := by
  intro l
  induction l with
  | nil => intro m rem h; simp [getLowest] at h
  | cons x rest ih =>
      intro m rem h
      rw [getLowest] at h
      split at h
      · simp only [Option.some.injEq, Prod.mk.injEq] at h
        obtain ⟨rfl, rfl⟩ := h
        refine ⟨List.mem_cons_self .., ?_⟩
        intro y hy; simp at hy
      · rename_i m' rem' hr
        split at h
        · simp only [Option.some.injEq, Prod.mk.injEq] at h
          obtain ⟨rfl, rfl⟩ := h
          obtain ⟨h1, h2⟩ := ih _ _ hr
          refine ⟨List.mem_cons_of_mem x h1, ?_⟩
          intro y hy
          rcases List.mem_cons.mp hy with h3 | h3
          · subst h3; exact List.mem_cons_self ..
          · exact List.mem_cons_of_mem x (h2 y h3)
        · simp only [Option.some.injEq, Prod.mk.injEq] at h
          obtain ⟨rfl, rfl⟩ := h
          exact ⟨List.mem_cons_self .., fun y hy => List.mem_cons_of_mem x hy⟩

theorem eraseFirstNode_subset {Node : Type} [DecidableEq Node] :
    ∀ (l : List (NS Node)) (t : Node) (x : NS Node),
      x ∈ eraseFirstNode l t → x ∈ l := by
  intro l t
  induction l with
  | nil => intro x hx; simp [eraseFirstNode] at hx
  | cons a as ih =>
      intro x hx
      rw [eraseFirstNode] at hx
      by_cases hn : a.node = t
      · rw [if_pos hn] at hx
        exact List.mem_cons_of_mem a hx
      · rw [if_neg hn] at hx
        rcases List.mem_cons.mp hx with h1 | h1
        · subst h1; exact List.mem_cons_self ..
        · exact List.mem_cons_of_mem a (ih x h1)

theorem expand_vc {Node : Type} [DecidableEq Node] (G : GraphM Node)
    (s : Node) (h : Node → ℤ) (current : NS Node) (closed : List Node)
    (hc : ValidChain G s current) :
    ∀ (es : List (EdgeM Node)) (opn : List (NS Node)),
      (∀ e ∈ es, e ∈ G.outgoingEdges current.node) →
      (∀ x ∈ opn, ValidChain G s x) →
      ∀ x ∈ expand G h current closed es opn, ValidChain G s x := by
  intro es
  induction es with
  | nil =>
      intro opn _ hopn x hx
      rw [expand] at hx
      exact hopn x hx
  | cons e es ih =>
      intro opn hes hopn x hx
      have hese : ∀ e' ∈ es, e' ∈ G.outgoingEdges current.node :=
        fun e' he' => hes e' (List.mem_cons_of_mem e he')
      have hnext : ValidChain G s
          (.mk (some current) e.to_ (h e.to_ + (current.g + e.cost))
            (current.g + e.cost)) :=
        ValidChain.step current e _ hc (hes e (List.mem_cons_self ..))
      have hmemnext : ∀ (l : List (NS Node)), (∀ y ∈ l, ValidChain G s y) →
          ∀ y ∈ l ++ [NS.mk (some current) e.to_
            (h e.to_ + (current.g + e.cost)) (current.g + e.cost)],
          ValidChain G s y := by
        intro l hl y hy
        rcases List.mem_append.mp hy with h1 | h1
        · exact hl y h1
        · simp at h1; subst h1; exact hnext
      simp only [expand] at hx
      split at hx
      · exact ih opn hese hopn x hx
      · split at hx
        · exact ih _ hese (hmemnext opn hopn) x hx
        · split at hx
          · exact ih opn hese hopn x hx
          · exact ih _ hese (hmemnext _ (fun y hy =>
              hopn y (eraseFirstNode_subset opn e.to_ y hy))) x hx

theorem loop_found {Node : Type} [DecidableEq Node] (G : GraphM Node)
    (start : Node) (goal : Node → Bool) (h : Node → ℤ)
    (timeout startTime : ℤ) (clock : ℕ → ℤ) :
    ∀ (fuel k : ℕ) (opn : List (NS Node)) (closed : List Node)
      (r : SearchResultM Node),
      (∀ x ∈ opn, ValidChain G start x) →
      aStarLoop G goal h timeout startTime clock fuel k opn closed = .found r →
      ∃ ns, ValidChain G start ns ∧ goal ns.node = true ∧ r = reconstruct ns := by
  intro fuel
  induction fuel with
  | zero =>
      intro k opn closed r _ hrun
      simp [aStarLoop] at hrun
  | succ fuel ih =>
      intro k opn closed r hinv hrun
      rw [aStarLoop] at hrun
      split at hrun
      · cases hg : getLowest opn with
        | none => rw [hg] at hrun; simp at hrun
        | some p =>
            obtain ⟨current, rest⟩ := p
            rw [hg] at hrun
            simp only at hrun
            have hmem := getLowest_mem opn current rest hg
            have hcur : ValidChain G start current := hinv current hmem.1
            by_cases hgoal : goal current.node = true
            · rw [if_pos hgoal] at hrun
              simp only [AOutcome.found.injEq] at hrun
              exact ⟨current, hcur, hgoal, hrun.symm⟩
            · rw [if_neg hgoal] at hrun
              refine ih (k + 1) _ _ r ?_ hrun
              intro x hx
              exact expand_vc G start h current (closed ++ [current.node]) hcur
                (G.outgoingEdges current.node) rest (fun e he => he)
                (fun y hy => hinv y (hmem.2 y hy)) x hx
      · simp at hrun

theorem chainNodes_head {Node : Type} :
    ∀ ns : NS Node, (chainNodes ns).head? = some ns.node := by
  intro ns
  cases ns with
  | mk p x f g => cases p <;> simp [chainNodes, NS.node]

theorem chainNodes_ne_nil {Node : Type} :
    ∀ ns : NS Node, chainNodes ns ≠ [] := by
  intro ns
  cases ns with
  | mk p x f g => cases p <;> simp [chainNodes]

theorem vc_last {Node : Type} (G : GraphM Node) (s : Node) :
    ∀ ns : NS Node, ValidChain G s ns → (chainNodes ns).getLast? = some s := by
  intro ns hns
  induction hns with
  | root f => simp [chainNodes]
  | step p e f hp he ihp =>
      rw [chainNodes]
      obtain ⟨y, ys, hys⟩ := List.exists_cons_of_ne_nil (chainNodes_ne_nil p)
      rw [hys]
      rw [List.getLast?_cons_cons]
      rw [← hys]
      exact ihp

theorem pathcost_congr {Node : Type} (G : GraphM Node) {l : List Node}
    {c c' : ℤ} (h : PathCost G l c) (he : c = c') : PathCost G l c' :=
  he ▸ h

theorem pathcost_snoc {Node : Type} (G : GraphM Node) (l : List Node) (c : ℤ)
    (a : Node) (e : EdgeM Node) (hpc : PathCost G l c) :
    l.getLast? = some a → e ∈ G.outgoingEdges a →
    PathCost G (l ++ [e.to_]) (c + e.cost) := by
  induction hpc with
  | single n =>
      intro hlast he
      simp only [List.getLast?_singleton, Option.some.injEq] at hlast
      subst hlast
      have hpc2 : PathCost G (n :: e.to_ :: []) (e.cost + 0) :=
        PathCost.cons n e.to_ [] e 0 he rfl (PathCost.single e.to_)
      exact pathcost_congr G hpc2 (by ring)
  | cons a' b rest e' c' he' hb hc ihc =>
      intro hlast he
      rw [List.getLast?_cons_cons] at hlast
      have ihr := ihc hlast he
      have hpc2 : PathCost G (a' :: (b :: (rest ++ [e.to_])))
          (e'.cost + (c' + e.cost)) :=
        PathCost.cons a' b (rest ++ [e.to_]) e' (c' + e.cost) he' hb ihr
      exact pathcost_congr G hpc2 (by ring)

theorem vc_pathcost {Node : Type} (G : GraphM Node) (s : Node) :
    ∀ ns : NS Node, ValidChain G s ns →
      PathCost G (chainNodes ns).reverse ns.g := by
  intro ns hns
  induction hns with
  | root f =>
      simp only [chainNodes, List.reverse_singleton, NS.g]
      exact PathCost.single s
  | step p e f hp he ihp =>
      rw [chainNodes, List.reverse_cons]
      have hlast : (chainNodes p).reverse.getLast? = some p.node := by
        rw [List.getLast?_reverse]; exact chainNodes_head p
      have := pathcost_snoc G (chainNodes p).reverse p.g p.node e ihp hlast he
      simpa [NS.g] using this

/-! ## Claims C1-C3 (SearchEngine) -/

/-- Claim C1 (code evaluation at the failing input).  The source loop guard
`!openSet.isEmpty() || Date.now() - startTime <= timeout*1000` (Graph.ts:107)
never consults the timeout while the frontier is nonempty, so with
`timeoutSeconds = 0` and every `Date.now()` reading 5000 ms past `startTime`
(elapsed strictly above the budget at every check, first conjunct) the search
still runs to completion and returns the full path `[0, 1]` with cost 1,
instead of terminating with NoPath as the claim states. -/
theorem claim1_timeout_ignored :
    ((0 : ℤ) * 1000 < (5000 : ℤ) - 0) ∧
    aStarSearch gLine 0 (fun x => x == 1) (fun _ => 0) 0 0 (fun _ => 5000) 10 =
      .found ⟨[0, 1], 1⟩ := by
  constructor
  · norm_num
  · decide

/-- Claim C2 (code evaluation at the failing input).  On a single non-goal
node with no edges and `timeoutSeconds = 10`, the frontier empties after one
expansion while elapsed time (0 ms, first conjunct) is within the budget, so
the `||` guard re-enters the loop and `getLowest` dereferences the null
`firstNode` of the empty list — a thrown TypeError (`.crash`), not the NoPath
return the claim states. -/
theorem claim2_empty_frontier_crash :
    ((0 : ℤ) - 0 ≤ (10 : ℤ) * 1000) ∧
    aStarSearch gPoint 0 (fun _ => false) (fun _ => 0) 10 0 (fun _ => 0) 5 =
      .crash := by
  constructor
  · norm_num
  · decide

/-- Claim C3: every successful result of `aStarSearch` is obtained by
following parent links from the goal entry back to the start (inclusive) and
reversing; hence its first element is the start node, its last element
satisfies the goal predicate, and the returned cost is the exact sum of the
costs of the graph edges followed along the path. -/
theorem claim3_path_reconstruction {Node : Type} [DecidableEq Node]
    (G : GraphM Node) (start : Node) (goal : Node → Bool)
    (heuristics : Node → ℤ) (timeout startTime : ℤ) (clock : ℕ → ℤ)
    (fuel : ℕ) (r : SearchResultM Node)
    (hrun : aStarSearch G start goal heuristics timeout startTime clock fuel =
      .found r) :
    ∃ ns, ValidChain G start ns ∧ goal ns.node = true ∧
      r.path = (chainNodes ns).reverse ∧ r.cost = ns.g ∧
      r.path.head? = some start ∧
      (∃ z, r.path.getLast? = some z ∧ goal z = true) ∧
      PathCost G r.path r.cost := by
  have h0 : ∀ x ∈ ([NS.mk none start (heuristics start) 0] : List (NS Node)),
      ValidChain G start x := by
    intro x hx
    simp at hx
    subst hx
    exact ValidChain.root _
  obtain ⟨ns, hvc, hgoal, hr⟩ :=
    loop_found G start goal heuristics timeout startTime clock fuel 0 _ [] r
      h0 hrun
  subst hr
  refine ⟨ns, hvc, hgoal, rfl, rfl, ?_, ⟨ns.node, ?_, hgoal⟩, ?_⟩
  · show ((chainNodes ns).reverse).head? = some start
    rw [List.head?_reverse]
    exact vc_last G start ns hvc
  · show ((chainNodes ns).reverse).getLast? = some ns.node
    rw [List.getLast?_reverse]
    exact chainNodes_head ns
  · exact vc_pathcost G start ns hvc

/-- Witness for C3: a concrete successful run on the two-node graph, with the
reconstruction, head, last and cost-sum facts instantiated there. -/
theorem claim3_witness :
    ∃ ns, ValidChain gLine 0 ns ∧ (ns.node == 1) = true ∧
      ([0, 1] : List ℕ) = (chainNodes ns).reverse ∧ (1 : ℤ) = ns.g ∧
      ([0, 1] : List ℕ).head? = some 0 ∧
      (∃ z, ([0, 1] : List ℕ).getLast? = some z ∧ (z == 1) = true) ∧
      PathCost gLine [0, 1] 1 :=
  claim3_path_reconstruction gLine 0 (fun x => x == 1) (fun _ => 0) 10 0
    (fun _ => 0) 5 ⟨[0, 1], 1⟩ (by decide)

/-! ## Lemmas about the interpreter -/

theorem getDef_error (o : Option ObjectDefinition) (e : InterpErr)
    (h : getDef o = .error e) : e = .typeError := by
  cases o with
  | none => simp [getDef] at h; exact h.symm
  | some d => simp [getDef] at h

set_option maxHeartbeats 1600000 in
/-- The only exception `isAllowed` can raise is the TypeError from reading a
property of a missing object definition. -/
theorem isAllowed_error (st : WorldState) (cmdRel m rel d : String)
    (e : InterpErr) (h : isAllowed st cmdRel m rel d = .error e) :
    e = .typeError := by
  rw [isAllowed] at h
  split at h
  · exact Except.noConfusion h
  · split at h
    · rename_i e2 heq
      simp only [Except.error.injEq] at h
      subst h
      exact getDef_error _ _ heq
    · split at h
      · exact Except.noConfusion h
      · split at h
        · rename_i e2 heq
          simp only [Except.error.injEq] at h
          subst h
          exact getDef_error _ _ heq
        · repeat' split at h
          all_goals exact Except.noConfusion h

theorem buildRelOne_error (st : WorldState) (rel m : String) :
    ∀ (ds : List String) (e : InterpErr),
      buildRelOne st rel m ds = .error e → e = .typeError := by
  intro ds
  induction ds with
  | nil => intro e h; rw [buildRelOne] at h; exact Except.noConfusion h
  | cons d ds ih =>
      intro e h
      rw [buildRelOne] at h
      split at h
      · rename_i e2 heq
        simp only [Except.error.injEq] at h
        subst h
        exact isAllowed_error st rel m rel d e2 heq
      · split at h
        · rename_i e2 heq
          simp only [Except.error.injEq] at h
          subst h
          exact ih e2 heq
        · exact Except.noConfusion h

theorem buildRel_error (st : WorldState) (rel : String) :
    ∀ (ms ds : List String) (e : InterpErr),
      buildRel st rel ms ds = .error e → e = .typeError := by
  intro ms
  induction ms with
  | nil => intro ds e h; rw [buildRel] at h; exact Except.noConfusion h
  | cons m ms ih =>
      intro ds e h
      rw [buildRel] at h
      split at h
      · rename_i e2 heq
        simp only [Except.error.injEq] at h
        subst h
        exact buildRelOne_error st rel m ds e2 heq
      · split at h
        · rename_i e2 heq
          simp only [Except.error.injEq] at h
          subst h
          exact ih ds e2 heq
        · exact Except.noConfusion h

/-- The only error the formula-building phase itself can raise is a
TypeError; `noInterpretation` arises solely from the final emptiness check. -/
theorem resolvedFormula_error (cmd : Command) (st : WorldState) (e : InterpErr)
    (h : resolvedFormula cmd st = .error e) : e = .typeError := by
  rw [resolvedFormula] at h
  split at h
  · exact Except.noConfusion h
  · split at h
    · simp only [Except.error.injEq] at h
      exact h.symm
    · exact buildRel_error st _ _ _ e h

/-- The resolver never produces duplicate identifiers when the world's stacks
carry no duplicates. -/
theorem interpretObject_nodup (st : WorldState)
    (h : st.stacks'.flatten.Nodup) :
    (o : PObject) → (interpretObject st o).Nodup
  | .flat form size color => by
      rw [interpretObject]
      split
      · simp
      · exact h.filter _
  | .comp obj loc => by
      rw [interpretObject]
      exact (interpretObject_nodup st h obj).filter _

theorem interpretEntity_nodup (st : WorldState)
    (h : st.stacks'.flatten.Nodup) (ent : PEntity) :
    (interpretEntity st ent).Nodup := by
  cases ent with
  | mk o => rw [interpretEntity]; exact interpretObject_nodup st h o

/-- `interpretCommand` raises the "No interpetation found." error exactly when
the formula-building phase completed with an empty formula. -/
theorem interpretCommand_noInterp (cmd : Command) (st : WorldState) :
    interpretCommand cmd st = .error .noInterpretation ↔
      resolvedFormula cmd st = .ok [] := by
  cases hres : resolvedFormula cmd st with
  | error e =>
      have het := resolvedFormula_error cmd st e hres
      subst het
      rw [interpretCommand, hres]
      simp
  | ok phi =>
      rw [interpretCommand, hres]
      show (if phi.length ≠ 0 then
            (Except.ok phi : Except InterpErr (List (List Literal)))
          else Except.error InterpErr.noInterpretation) =
          Except.error InterpErr.noInterpretation ↔
        (Except.ok phi : Except InterpErr (List (List Literal))) = Except.ok []
      by_cases hlen : phi.length ≠ 0
      · rw [if_pos hlen]
        constructor
        · intro hcon; exact Except.noConfusion hcon
        · intro hcon
          simp only [Except.ok.injEq] at hcon
          subst hcon
          simp at hlen
      · rw [if_neg hlen]
        push_neg at hlen
        have hnil : phi = [] := List.length_eq_zero.mp hlen
        subst hnil
        simp

/-- From a successful `interpretCommand` run, the build phase succeeded with
the same (nonempty) formula. -/
theorem interpretCommand_ok (cmd : Command) (st : WorldState)
    (phi : List (List Literal)) (h : interpretCommand cmd st = .ok phi) :
    resolvedFormula cmd st = .ok phi ∧ phi ≠ [] := by
  cases hres : resolvedFormula cmd st with
  | error e =>
      rw [interpretCommand, hres] at h
      exact Except.noConfusion h
  | ok l =>
      rw [interpretCommand, hres] at h
      replace h : (if l.length ≠ 0 then
            (Except.ok l : Except InterpErr (List (List Literal)))
          else Except.error InterpErr.noInterpretation) = Except.ok phi := h
      by_cases hlen : l.length ≠ 0
      · rw [if_pos hlen] at h
        simp only [Except.ok.injEq] at h
        subst h
        refine ⟨rfl, ?_⟩
        intro hnil
        subst hnil
        simp at hlen
      · rw [if_neg hlen] at h
        exact Except.noConfusion h

/-- Every conjunction emitted by the relational inner loop is the singleton
literal of a destination candidate that `isAllowed` accepted. -/
theorem buildRelOne_shape (st : WorldState) (rel m : String) :
    ∀ (ds : List String) (l : List (List Literal)),
      buildRelOne st rel m ds = .ok l →
      ∀ c ∈ l, ∃ d ∈ ds, isAllowed st rel m rel d = .ok true ∧
        c = mkLit rel m d := by
  intro ds
  induction ds with
  | nil =>
      intro l h c hc
      rw [buildRelOne] at h
      simp only [Except.ok.injEq] at h
      subst h
      simp at hc
  | cons d ds ih =>
      intro l h c hc
      rw [buildRelOne] at h
      split at h
      · exact Except.noConfusion h
      · rename_i b heq
        split at h
        · exact Except.noConfusion h
        · rename_i rest heq2
          simp only [Except.ok.injEq] at h
          subst h
          rcases List.mem_append.mp hc with h1 | h1
          · cases b with
            | false => simp at h1
            | true =>
                simp at h1
                subst h1
                exact ⟨d, List.mem_cons_self .., heq, rfl⟩
          · obtain ⟨d', hd', hleg, hc'⟩ := ih rest heq2 c h1
            exact ⟨d', List.mem_cons_of_mem d hd', hleg, hc'⟩

/-- Every conjunction emitted by the relational branch is the singleton
literal of a legal (move, destination) candidate pair. -/
theorem buildRel_shape (st : WorldState) (rel : String) :
    ∀ (ms ds : List String) (l : List (List Literal)),
      buildRel st rel ms ds = .ok l →
      ∀ c ∈ l, ∃ m ∈ ms, ∃ d ∈ ds, isAllowed st rel m rel d = .ok true ∧
        c = mkLit rel m d := by
  intro ms
  induction ms with
  | nil =>
      intro ds l h c hc
      rw [buildRel] at h
      simp only [Except.ok.injEq] at h
      subst h
      simp at hc
  | cons m ms ih =>
      intro ds l h c hc
      rw [buildRel] at h
      split at h
      · exact Except.noConfusion h
      · rename_i l1 heq1
        split at h
        · exact Except.noConfusion h
        · rename_i l2 heq2
          simp only [Except.ok.injEq] at h
          subst h
          rcases List.mem_append.mp hc with h1 | h1
          · obtain ⟨d', hd', hleg, hc'⟩ := buildRelOne_shape st rel m ds l1 heq1 c h1
            exact ⟨m, List.mem_cons_self .., d', hd', hleg, hc'⟩
          · obtain ⟨m', hm', d', hd', hleg, hc'⟩ := ih ds l2 heq2 c h1
            exact ⟨m', List.mem_cons_of_mem m hm', d', hd', hleg, hc'⟩

theorem mkLit_inj (rel m d m' d' : String) :
    mkLit rel m d = mkLit rel m' d' ↔ m = m' ∧ d = d' := by
  simp [mkLit]

/-- With duplicate-free destination candidates, the inner loop emits the
conjunction of an accepted destination exactly once. -/
theorem buildRelOne_count (st : WorldState) (rel m d0 : String)
    (hleg : isAllowed st rel m rel d0 = .ok true) :
    ∀ (ds : List String), ds.Nodup → d0 ∈ ds →
      ∀ l, buildRelOne st rel m ds = .ok l →
        l.count (mkLit rel m d0) = 1 := by
  intro ds
  induction ds with
  | nil => intro _ hd0; simp at hd0
  | cons d ds ih =>
      intro hnd hd0 l h
      rw [buildRelOne] at h
      split at h
      · exact Except.noConfusion h
      · rename_i b heq
        split at h
        · exact Except.noConfusion h
        · rename_i rest heq2
          simp only [Except.ok.injEq] at h
          subst h
          rw [List.count_append]
          by_cases hdd : d = d0
          · subst hdd
            have hb : b = true := by
              have := heq.symm.trans hleg
              simpa using this
            subst hb
            have hnotin : d ∉ ds := (List.nodup_cons.mp hnd).1
            have hrest : rest.count (mkLit rel m d) = 0 := by
              rw [List.count_eq_zero]
              intro hmem
              obtain ⟨d', hd', _, hc'⟩ :=
                buildRelOne_shape st rel m ds rest heq2 _ hmem
              obtain ⟨_, rfl⟩ := (mkLit_inj rel m d m d').mp hc'
              exact hnotin hd'
            rw [hrest]
            simp
          · have hd0' : d0 ∈ ds := by
              rcases List.mem_cons.mp hd0 with h1 | h1
              · exact absurd h1.symm hdd
              · exact h1
            have h1 : (if b = true then [mkLit rel m d] else []).count
                (mkLit rel m d0) = 0 := by
              rw [List.count_eq_zero]
              intro hmem
              cases b with
              | false => simp at hmem
              | true =>
                  simp at hmem
                  obtain ⟨_, hd0d⟩ := (mkLit_inj rel m d0 m d).mp hmem
                  exact hdd hd0d.symm
            rw [h1, ih (List.nodup_cons.mp hnd).2 hd0' rest heq2]

/-- With duplicate-free move and destination candidates, each legal pair's
conjunction appears exactly once in the relational branch's formula. -/
theorem buildRel_count (st : WorldState) (rel m0 d0 : String)
    (hleg : isAllowed st rel m0 rel d0 = .ok true) :
    ∀ (ms ds : List String), ms.Nodup → ds.Nodup → m0 ∈ ms → d0 ∈ ds →
      ∀ l, buildRel st rel ms ds = .ok l →
        l.count (mkLit rel m0 d0) = 1 := by
  intro ms
  induction ms with
  | nil => intro ds _ _ hm0; simp at hm0
  | cons m ms ih =>
      intro ds hndm hndd hm0 hd0 l h
      rw [buildRel] at h
      split at h
      · exact Except.noConfusion h
      · rename_i l1 heq1
        split at h
        · exact Except.noConfusion h
        · rename_i l2 heq2
          simp only [Except.ok.injEq] at h
          subst h
          rw [List.count_append]
          by_cases hmm : m = m0
          · subst hmm
            have hnotin : m ∉ ms := (List.nodup_cons.mp hndm).1
            have hc1 : l1.count (mkLit rel m d0) = 1 :=
              buildRelOne_count st rel m d0 hleg ds hndd hd0 l1 heq1
            have hc2 : l2.count (mkLit rel m d0) = 0 := by
              rw [List.count_eq_zero]
              intro hmem
              obtain ⟨m', hm', _, _, _, hc'⟩ :=
                buildRel_shape st rel ms ds l2 heq2 _ hmem
              obtain ⟨rfl, _⟩ := (mkLit_inj rel m d0 m' _).mp hc'
              exact hnotin hm'
            rw [hc1, hc2]
          · have hm0' : m0 ∈ ms := by
              rcases List.mem_cons.mp hm0 with h1 | h1
              · exact absurd h1.symm hmm
              · exact h1
            have hc1 : l1.count (mkLit rel m0 d0) = 0 := by
              rw [List.count_eq_zero]
              intro hmem
              obtain ⟨d', hd', _, hc'⟩ :=
                buildRelOne_shape st rel m ds l1 heq1 _ hmem
              obtain ⟨rfl, _⟩ := (mkLit_inj rel m0 d0 m d').mp hc'
              exact hmm rfl
            rw [hc1, ih ds (List.nodup_cons.mp hndm).2 hndd hm0' hd0 l2 heq2]

theorem flatMap_const_nil (l : List String) :
    (l.flatMap (fun _ => ([] : List String))) = [] := by
  induction l with
  | nil => rfl
  | cons a t ih => simp only [List.flatMap_cons, ih]; rfl

theorem relatedObjects_left_of (st : WorldState) (i j : ℤ) :
    relatedObjects st leftSpaceOfS (i, j) = jsStackAt st.stacks' (i - 1) := rfl

theorem relatedObjects_right_of (st : WorldState) (i j : ℤ) :
    relatedObjects st rightSpaceOfS (i, j) = jsStackAt st.stacks' (i + 1) := rfl

theorem jsStackAt_length (sts : List (List String)) :
    jsStackAt sts (sts.length : ℤ) = [] := by
  rw [jsStackAt, if_pos (Int.natCast_nonneg _), Int.toNat_natCast]
  exact List.getD_eq_default _ _ (le_refl _)

/-! ## Claims C4-C10 (GoalBuilder, EntityResolver, LegalityChecker) -/

/-- Claim C4: for a relational (non-take) command whose build completes, the
formula holds exactly one singleton conjunction
`{polarity:true, relation, args:[m,d]}` per ordered pair `(m, d)` of resolved
move and destination candidates accepted by `isAllowed`, and nothing else;
every conjunction has exactly one literal.  (When the destination set is the
virtual floor identifier the build never completes: `isAllowed` raises the
TypeError of C8/C5, so no successful formula contains a floor pair.) -/
theorem claim4_relational_product (cmd : Command) (st : WorldState)
    (loc : PLocation) (phi : List (List Literal))
    (hwf : WellFormed st)
    (htake : cmd.command ≠ takeS)
    (hloc : cmd.location = some loc)
    (hok : interpretCommand cmd st = .ok phi) :
    (∀ m ∈ interpretEntity st cmd.entity,
      ∀ d ∈ interpretEntity st loc.entity,
        isAllowed st loc.relation m loc.relation d = .ok true →
        phi.count (mkLit loc.relation m d) = 1) ∧
    (∀ c ∈ phi, ∃ m ∈ interpretEntity st cmd.entity,
      ∃ d ∈ interpretEntity st loc.entity,
        isAllowed st loc.relation m loc.relation d = .ok true ∧
        c = mkLit loc.relation m d ∧ c.length = 1) := by
  obtain ⟨hres, _⟩ := interpretCommand_ok cmd st phi hok
  rw [resolvedFormula, if_neg htake, hloc] at hres
  constructor
  · intro m hm d hd hleg
    exact buildRel_count st loc.relation m d hleg _ _
      (interpretEntity_nodup st hwf.1 cmd.entity)
      (interpretEntity_nodup st hwf.1 loc.entity) hm hd phi hres
  · intro c hc
    obtain ⟨m, hm, d, hd, hleg, hc'⟩ :=
      buildRel_shape st loc.relation _ _ phi hres c hc
    exact ⟨m, hm, d, hd, hleg, hc', by rw [hc']; rfl⟩

/-- Witness for C4: "move the ball inside the box" in the two-column world
produces the pair conjunction `inside(a,k)` exactly once. -/
theorem claim4_witness :
    ([[Literal.mk true insideS [aS, kS]]] : List (List Literal)).count
      (mkLit insideS aS kS) = 1 :=
  (claim4_relational_product cmdBallInBox wBallBox ⟨insideS, ⟨boxLeaf⟩⟩
      [[Literal.mk true insideS [aS, kS]]]
      (by decide) (by decide) rfl (by decide)).1
    aS (by decide) kS (by decide) (by decide)

/-- Claim C5 (code evaluation at the failing input).  The claim's rule 2 says
`isLegal("a", "under", "floor")` is false (destination is the floor, relation
not ontop/above).  The code instead reads `state.objects["floor"].form`; with
no floor entry in the map (first conjunct) that is a TypeError, so `isAllowed`
raises instead of returning false.  For destinations that do have an entry,
the rule table behaves as the claim describes. -/
theorem claim5_floor_rule_raises :
    lookupDef wBall floorS = none ∧
    isAllowed wBall underS aS underS floorS = .error .typeError := by decide

/-- Claim C6 counterexample: in `wHeld` the held identifier `h` matches the
flat leaf `{form: ball}` via the Matcher and has an ObjectDefinition, yet
`interpretObject` does not return it — the resolver scans only the
identifiers collected from the stacks, so "every world identifier whose
ObjectDefinition matches" is not what the code computes. -/
theorem claim6_counterexample :
    isMatching ballDef (some ballS) none none = true ∧
    lookupDef wHeld hS = some ballDef ∧
    wHeld.holding = some hS ∧
    hS ∉ interpretObject wHeld ballLeaf := by decide

/-- Claim C6 as amended: composite descriptions resolve to the intersection
of the inner object set and the inner location's set; a flat floor leaf gives
the singleton floor identifier; any other flat leaf gives exactly the
identifiers occurring in the world's stacks (held identifiers excluded)
whose definition matches via the Matcher. -/
theorem claim6_resolve_object (st : WorldState)
    (form size color : Option String) (obj : PObject) (loc : PLocation)
    (x id : String) :
    (x ∈ interpretObject st (.comp obj loc) ↔
      x ∈ interpretObject st obj ∧ x ∈ interpretLocation st loc) ∧
    interpretObject st (.flat (some floorS) size color) = [floorS] ∧
    (form ≠ some floorS →
      (id ∈ interpretObject st (.flat form size color) ↔
        id ∈ st.stacks'.flatten ∧
        isMatching (defOf st id) form size color = true)) := by
  refine ⟨?_, ?_, ?_⟩
  · rw [interpretObject]
    constructor
    · intro hx
      obtain ⟨h1, h2⟩ := List.mem_filter.mp hx
      exact ⟨h1, List.mem_of_elem_eq_true h2⟩
    · rintro ⟨h1, h2⟩
      exact List.mem_filter.mpr ⟨h1, List.elem_eq_true_of_mem h2⟩
  · rw [interpretObject, if_pos rfl]
  · intro hne
    rw [interpretObject, if_neg hne]
    constructor
    · intro hx
      exact List.mem_filter.mp hx
    · intro hx
      exact List.mem_filter.mpr hx

/-- Witness for C6 (amended): the flat-leaf characterization evaluated in the
one-ball world. -/
theorem claim6_witness :
    aS ∈ interpretObject wBall (.flat (some ballS) none none) ↔
      (aS ∈ wBall.stacks'.flatten ∧
        isMatching (defOf wBall aS) (some ballS) none none = true) :=
  (claim6_resolve_object wBall (some ballS) none none ballLeaf
      ⟨insideS, ⟨boxLeaf⟩⟩ aS aS).2.2 (by decide)

/-- Claim C7: `interpretCommand` raises NoInterpretationError exactly when
the resolved formula is empty; and in the top-level `interpret`, a per-parse
failure is non-fatal — a successful parse yields a successful overall result,
and only when every parse fails is an error surfaced, namely the first
collected one (the first parse's error, since all failed). -/
theorem claim7_error_collection (st : WorldState) (cmd : Command)
    (parses : List Command) (p0 : Command) (ps : List Command) :
    (interpretCommand cmd st = .error .noInterpretation ↔
      resolvedFormula cmd st = .ok []) ∧
    ((∃ p ∈ parses, ∃ phi, interpretCommand p st = .ok phi) →
      ∃ l, interpretAll parses st = .ok l) ∧
    (parses = p0 :: ps →
      (∀ p ∈ parses, ∃ e, interpretCommand p st = .error e) →
      ∃ e0, interpretCommand p0 st = .error e0 ∧
        interpretAll parses st = .error (some e0)) := by
  refine ⟨interpretCommand_noInterp cmd st, ?_, ?_⟩
  · rintro ⟨p, hp, phi, hphi⟩
    have hmem : (p, phi) ∈ parses.filterMap (fun q =>
        match interpretCommand q st with
        | .ok phi2 => some (q, phi2)
        | .error _ => none) := by
      apply List.mem_filterMap.mpr
      refine ⟨p, hp, ?_⟩
      rw [hphi]
    have hne : ¬ ((parses.filterMap (fun q =>
        match interpretCommand q st with
        | .ok phi2 => some (q, phi2)
        | .error _ => none)).isEmpty = true) := by
      cases hl : parses.filterMap (fun q =>
          match interpretCommand q st with
          | .ok phi2 => some (q, phi2)
          | .error _ => none) with
      | nil => rw [hl] at hmem; cases hmem
      | cons a as => exact Bool.false_ne_true
    refine ⟨parses.filterMap (fun q =>
        match interpretCommand q st with
        | .ok phi2 => some (q, phi2)
        | .error _ => none), ?_⟩
    simp only [interpretAll]
    rw [if_neg hne]
  · rintro rfl hall
    obtain ⟨e0, he0⟩ := hall p0 (List.mem_cons_self ..)
    have hoks : (p0 :: ps).filterMap (fun q =>
        match interpretCommand q st with
        | .ok phi2 => some (q, phi2)
        | .error _ => none) = [] := by
      rw [List.filterMap_eq_nil_iff]
      intro p hp
      obtain ⟨e, he⟩ := hall p hp
      simp [he]
    refine ⟨e0, he0, ?_⟩
    simp only [interpretAll]
    rw [hoks]
    simp [List.filterMap_cons, he0]

/-- Witness for C7: a single unresolvable parse — its NoInterpretationError
is the error surfaced by the top-level collection. -/
theorem claim7_witness :
    ∃ e0, interpretCommand cmdTakeNothing wBall = .error e0 ∧
      interpretAll [cmdTakeNothing] wBall = .error (some e0) :=
  (claim7_error_collection wBall cmdTakeNothing [cmdTakeNothing]
      cmdTakeNothing []).2.2 rfl
    (by
      intro p hp
      rw [List.mem_singleton] at hp
      subst hp
      exact ⟨.noInterpretation, by decide⟩)

/-- Claim C8 (code evaluation at the failing input).  The claim says the
legality checker is total even on the virtual floor identifier, which has no
entry in the object-definition map (first conjunct).  Evaluating the code
there: `isAllowed("a", "ontop", "floor")` reads `.form` of the missing entry
and raises a TypeError instead of returning a Boolean. -/
theorem claim8_legality_raises_on_floor :
    lookupDef wBall floorS = none ∧
    isAllowed wBall ontopS aS ontopS floorS = .error .typeError := by decide

/-- Claim C9: an anchor in the leftmost stack contributes nothing under the
code's "left of" case (the source reads `stacks[pos-1]`, `undefined` at the
boundary), and an anchor in the rightmost stack contributes nothing under
"right of"; for the spelling "leftof"/"rightof" used by the grammar the
switch has no case at all, so the contribution is empty for every anchor and
`interpretLocation` returns the empty set outright — at the boundary in
particular, as the claim states. -/
theorem claim9_boundary_empty (st : WorldState) (j : ℤ) (p : ℤ × ℤ)
    (ent : PEntity) :
    relatedObjects st leftSpaceOfS (0, j) = [] ∧
    relatedObjects st rightSpaceOfS ((st.stacks'.length : ℤ) - 1, j) = [] ∧
    relatedObjects st leftofS p = [] ∧
    relatedObjects st rightofS p = [] ∧
    interpretLocation st ⟨leftofS, ent⟩ = [] ∧
    interpretLocation st ⟨rightofS, ent⟩ = [] := by
  refine ⟨?_, ?_, rfl, rfl, ?_, ?_⟩
  · rw [relatedObjects_left_of, jsStackAt, if_neg (by norm_num)]
  · rw [relatedObjects_right_of]
    have hh : (st.stacks'.length : ℤ) - 1 + 1 = (st.stacks'.length : ℤ) := by
      ring
    rw [hh, jsStackAt_length]
  · rw [interpretLocation]
    rw [show (fun a => relatedObjects st leftofS (getPosition st a)) =
      (fun _ => ([] : List String)) from funext (fun a => rfl)]
    exact flatMap_const_nil _
  · rw [interpretLocation]
    rw [show (fun a => relatedObjects st rightofS (getPosition st a)) =
      (fun _ => ([] : List String)) from funext (fun a => rfl)]
    exact flatMap_const_nil _

/-- Claim C10: every literal in a formula the goal builder returns has
polarity true, `holding` literals have exactly one argument and relational
literals exactly two — even though the text rendering supports negative
polarity (second conjunct). -/
theorem claim10_positive_literals (cmd : Command) (st : WorldState)
    (phi : List (List Literal))
    (hok : interpretCommand cmd st = .ok phi)
    (hrel : ∀ l, cmd.location = some l → l.relation ≠ holdingS) :
    (∀ c ∈ phi, ∀ lit ∈ c, lit.polarity = true ∧
      (lit.relation = holdingS → lit.args.length = 1) ∧
      (lit.relation ≠ holdingS → lit.args.length = 2)) ∧
    stringifyLiteral ⟨false, ontopS, [aS, "b"]⟩ = "-ontop(a,b)" := by
  refine ⟨?_, by decide⟩
  intro c hc lit hlit
  obtain ⟨hres, _⟩ := interpretCommand_ok cmd st phi hok
  rw [resolvedFormula] at hres
  split at hres
  · simp only [Except.ok.injEq] at hres
    subst hres
    obtain ⟨t, ht, hct⟩ := List.mem_map.mp hc
    subst hct
    simp at hlit
    subst hlit
    exact ⟨rfl, fun _ => rfl, fun hne => absurd rfl hne⟩
  · split at hres
    · exact Except.noConfusion hres
    · rename_i loc hloceq
      obtain ⟨m, hm, d, hd, hleg, hc'⟩ :=
        buildRel_shape st loc.relation _ _ phi hres c hc
      subst hc'
      simp [mkLit] at hlit
      subst hlit
      have hnh : loc.relation ≠ holdingS := hrel loc hloceq
      exact ⟨rfl, fun hh => absurd hh hnh, fun _ => rfl⟩

/-- Witness for C10: the take command's formula in the one-ball world,
together with the negative-polarity rendering sample. -/
theorem claim10_witness :
    (∀ c ∈ ([[Literal.mk true holdingS [aS]]] : List (List Literal)),
      ∀ lit ∈ c, lit.polarity = true ∧
        (lit.relation = holdingS → lit.args.length = 1) ∧
        (lit.relation ≠ holdingS → lit.args.length = 2)) ∧
    stringifyLiteral ⟨false, ontopS, [aS, "b"]⟩ = "-ontop(a,b)" :=
  claim10_positive_literals cmdTakeBall wBall [[Literal.mk true holdingS [aS]]]
    (by decide) (fun l h => Option.noConfusion h)
